import Mathlib

/- Verification of the analysis pipeline in src/resume_analyzer.py (class
ResumeAnalyzer).  Python strings are modelled as List Char with ASCII
semantics for case conversion, character classes and regex word characters
(the repository's patterns and taxonomy are all ASCII).  External
dependencies are modelled explicitly: the PDF reader as an inductive
document value, the NLTK tokenizer and stopword set as parameters (the
source falls back to str.split and a built-in list, both embedded below),
and the word-cloud renderer by the exact text the code feeds it. -/

set_option maxRecDepth 10000

/- ===== Character classes (ASCII codes: 'a'..'z' = 97..122, 'A'..'Z' =
65..90, '0'..'9' = 48..57, '_' = 95, '+' = 43, '#' = 35, '.' = 46,
' ' = 32) ===== -/

/-- Lowercase ASCII letter, the regex range a-z. -/
def isAsciiLower (c : Char) : Bool := decide (97 ≤ c.toNat ∧ c.toNat ≤ 122)

/-- Uppercase ASCII letter, the regex range A-Z. -/
def isAsciiUpper (c : Char) : Bool := decide (65 ≤ c.toNat ∧ c.toNat ≤ 90)

/-- ASCII digit, the regex range 0-9. -/
def isAsciiDigit (c : Char) : Bool := decide (48 ≤ c.toNat ∧ c.toNat ≤ 57)

/-- ASCII letter. -/
def isAsciiAlpha (c : Char) : Bool := isAsciiLower c || isAsciiUpper c

/-- Python regex whitespace class (backslash-s), ASCII part: space, tab,
newline, carriage return, vertical tab, form feed. -/
def isPySpace (c : Char) : Bool :=
  decide (c.toNat = 32 ∨ c.toNat = 9 ∨ c.toNat = 10 ∨ c.toNat = 13 ∨
    c.toNat = 11 ∨ c.toNat = 12)

/-- Regex word character (backslash-w), ASCII: letters, digits, underscore. -/
def isWordChar (c : Char) : Bool :=
  isAsciiAlpha c || isAsciiDigit c || decide (c.toNat = 95)

/- ===== clean_text (resume_analyzer.py lines 82-89) ===== -/

/-- Characters the substitution re.sub(r'[^a-zA-Z0-9\s+#.]', ' ', text)
keeps unchanged: letters, digits, whitespace, plus, hash, dot. -/
def cleanKeep (c : Char) : Bool :=
  isAsciiAlpha c || isAsciiDigit c || isPySpace c ||
    decide (c.toNat = 43 ∨ c.toNat = 35 ∨ c.toNat = 46)

/-- re.sub(r'[^a-zA-Z0-9\s+#.]', ' ', text): every other character becomes
one space. -/
def subSpecial (text : List Char) : List Char :=
  text.map fun c => if cleanKeep c then c else ' '

/-- re.sub(r'\s+', ' ', text): every maximal whitespace run becomes a single
space. -/
def collapseWS : List Char → List Char
  | [] => []
  | [c] => if isPySpace c then [' '] else [c]
  | c :: d :: rest =>
    if isPySpace c && isPySpace d then collapseWS (d :: rest)
    else (if isPySpace c then ' ' else c) :: collapseWS (d :: rest)

/-- str.strip(): drop leading and trailing whitespace. -/
def pyStrip (text : List Char) : List Char :=
  ((text.dropWhile isPySpace).reverse.dropWhile isPySpace).reverse

/-- clean_text: lowercase (str.lower, ASCII model Char.toLower), blank out
special characters, collapse whitespace runs, strip the ends. -/
def clean_text (text : List Char) : List Char :=
  pyStrip (collapseWS (subSpecial (text.map Char.toLower)))

/-- The output alphabet the spec promises for the normalizer: a-z, 0-9,
plus, hash, dot, space. -/
def cleanOutChar (c : Char) : Bool :=
  isAsciiLower c || isAsciiDigit c ||
    decide (c.toNat = 43 ∨ c.toNat = 35 ∨ c.toNat = 46 ∨ c.toNat = 32)

/- ===== Tokenization and stopwords ===== -/

/-- str.split() with no argument: maximal runs of non-whitespace, the
fallback tokenizer of the source (lines 127-128, 150, 190-191). -/
def splitWSAux : List Char → List Char → List (List Char)
  | [], acc => if acc.isEmpty then [] else [acc.reverse]
  | c :: rest, acc =>
    if isPySpace c then
      if acc.isEmpty then splitWSAux rest [] else acc.reverse :: splitWSAux rest []
    else splitWSAux rest (c :: acc)

/-- str.split() on a whole string. -/
def splitWS (s : List Char) : List (List Char) := splitWSAux s []

/-- The built-in fallback stopword list of ResumeAnalyzer.__init__
(lines 40-52), used when the NLTK corpus is unavailable. -/
def basicStopwords : List (List Char) :=
  ["i", "me", "my", "myself", "we", "our", "ours", "ourselves", "you",
   "your", "yours", "yourself", "yourselves", "he", "him", "his", "himself",
   "she", "her", "hers", "herself", "it", "its", "itself", "they", "them",
   "their", "theirs", "themselves", "what", "which", "who", "whom", "this",
   "that", "these", "those", "am", "is", "are", "was", "were", "be", "been",
   "being", "have", "has", "had", "having", "do", "does", "did", "doing",
   "a", "an", "the", "and", "but", "if", "or", "because", "as", "until",
   "while", "of", "at", "by", "for", "with", "about", "against", "between",
   "into", "through", "during", "before", "after", "above", "below", "to",
   "from", "up", "down", "in", "out", "on", "off", "over", "under", "again",
   "further", "then", "once"].map String.data

/- ===== calculate_job_match (lines 180-206) ===== -/

/-- The significant-token set of a text: clean, tokenize (tok stands for
word_tokenize with str.split as fallback), deduplicate into a set, drop
stopwords and tokens of length at most 2 (lines 182-195). -/
def significantTokens (tok : List Char → List (List Char))
    (stop : List (List Char)) (text : List Char) : Finset (List Char) :=
  (tok (clean_text text)).toFinset.filter fun w => w ∉ stop ∧ 2 < w.length

/-- calculate_job_match: match percentage (Python computes the same integer
ratio in floating point; it is exact for these magnitudes and is modelled
as a rational), matching keywords, missing keywords. -/
def calculate_job_match (tok : List Char → List (List Char))
    (stop : List (List Char)) (resume_text job_description : List Char) :
    ℚ × Finset (List Char) × Finset (List Char) :=
  let resume_tokens := significantTokens tok stop resume_text
  let job_tokens := significantTokens tok stop job_description
  if job_tokens = ∅ then (0, ∅, ∅)
  else
    let matching_keywords := resume_tokens ∩ job_tokens
    let missing_keywords := job_tokens \ resume_tokens
    ((matching_keywords.card : ℚ) / (job_tokens.card : ℚ) * 100,
      matching_keywords, missing_keywords)

/- ===== get_word_frequency (lines 120-140) ===== -/

/-- One insertion into a collections.Counter represented as an association
list in first-insertion order: bump an existing key, or append a new key
with count 1 at the end. -/
def bumpCount (w : List Char) : List (List Char × Nat) → List (List Char × Nat)
  | [] => [(w, 1)]
  | e :: rest => if e.1 = w then (e.1, e.2 + 1) :: rest else e :: bumpCount w rest

/-- collections.Counter over a token list: counts keyed in first-occurrence
order. -/
def countTokens (ws : List (List Char)) : List (List Char × Nat) :=
  ws.foldl (fun acc w => bumpCount w acc) []

/-- The token filter of get_word_frequency (lines 131-136): not a stopword,
length over 2, str.isalpha (nonempty, letters only). -/
def freqKeep (stop : List (List Char)) (w : List Char) : Bool :=
  !(stop.contains w) && decide (2 < w.length) && (!w.isEmpty && w.all isAsciiAlpha)

/-- Counter.most_common(top_n): the first top_n entries of a stable sort by
count descending (heapq.nlargest keeps insertion order between ties, like
sorted with reverse=True). -/
def mostCommon (top_n : Nat) (wf : List (List Char × Nat)) : List (List Char × Nat) :=
  (wf.mergeSort fun a b => decide (b.2 ≤ a.2)).take top_n

/-- get_word_frequency: clean, tokenize, filter, count, take the top_n most
common entries (the Python dict preserves this order). -/
def get_word_frequency (tok : List Char → List (List Char))
    (stop : List (List Char)) (text : List Char) (top_n : Nat) :
    List (List Char × Nat) :=
  mostCommon top_n (countTokens ((tok (clean_text text)).filter (freqKeep stop)))

/- ===== Positions, substrings and regex word boundaries ===== -/

/-- The substring of s of length n starting at position i (shorter when it
runs off the end). -/
def sliceAt (s : List Char) (i n : Nat) : List Char := (s.drop i).take n

/-- Whether position i of s holds a word character (false past either end). -/
def wordAt (s : List Char) (i : Nat) : Bool := (s[i]?).any isWordChar

/-- Whether the position just before i holds a word character (false at the
left edge). -/
def wordBefore (s : List Char) (i : Nat) : Bool :=
  match i with
  | 0 => false
  | j + 1 => wordAt s j

/-- Regex word boundary (backslash-b) at position i: exactly one of the two
neighbouring positions holds a word character. -/
def boundary (s : List Char) (i : Nat) : Bool := wordBefore s i != wordAt s i

/- ===== extract_skills (lines 103-118) ===== -/

/-- re.search of the escaped term bracketed by word boundaries (line 112):
the term occurs literally at some position with a regex word boundary on
each side. -/
def boundedSearch (term s : List Char) : Bool :=
  (List.range (s.length + 1)).any fun i =>
    decide (sliceAt s i term.length = term) && boundary s i &&
      boundary s (i + term.length)

/-- The skill taxonomy of ResumeAnalyzer.__init__ (lines 55-69), in the
dict's insertion order. -/
def skill_keywords : List (List Char × List (List Char)) :=
  [("programming", ["python", "java", "javascript", "c++", "c#", "ruby", "php",
                    "swift", "kotlin", "go", "rust", "typescript", "sql", "r"]),
   ("web", ["html", "css", "react", "angular", "vue", "nodejs", "django",
            "flask", "fastapi", "express", "next.js", "bootstrap", "tailwind"]),
   ("data_science", ["machine learning", "deep learning", "nlp", "tensorflow",
                     "pytorch", "pandas", "numpy", "scikit-learn", "data analysis",
                     "statistics", "matplotlib", "seaborn", "tableau", "power bi"]),
   ("cloud", ["aws", "azure", "gcp", "docker", "kubernetes", "jenkins",
              "terraform", "ansible", "cicd", "devops"]),
   ("database", ["mongodb", "postgresql", "mysql", "redis", "elasticsearch",
                 "oracle", "cassandra", "dynamodb"]),
   ("soft_skills", ["leadership", "communication", "teamwork", "problem solving",
                    "analytical", "creative", "management", "agile", "scrum"])
  ].map fun cs => (cs.1.data, cs.2.map String.data)

/-- extract_skills: lowercase the text, keep each category's matching terms
in taxonomy order, drop categories with no match. -/
def extract_skills (text : List Char) : List (List Char × List (List Char)) :=
  (skill_keywords.map fun cs =>
    (cs.1, cs.2.filter fun sk => boundedSearch sk (text.map Char.toLower))).filter
    fun cs => !cs.2.isEmpty

/-- Whether the result of extract_skills lists the term under the category. -/
def reportsSkill (found : List (List Char × List (List Char)))
    (cat term : List Char) : Bool :=
  found.any fun cs => cs.1 == cat && cs.2.contains term

/-- Modelled from the claim's wording for comparison: the term occurs in the
text as a whole word or contiguous phrase, i.e. at a position where both
neighbouring positions are text edges or non-word characters. -/
def wholeWordOccurs (term s : List Char) : Bool :=
  (List.range (s.length + 1)).any fun i =>
    decide (sliceAt s i term.length = term) && !wordBefore s i &&
      !wordAt s (i + term.length)

/- ===== extract_email (lines 91-95) ===== -/

/-- Local-part class [A-Za-z0-9._%+-] ('%' = 37, '-' = 45). -/
def isLocalChar (c : Char) : Bool :=
  isAsciiAlpha c || isAsciiDigit c ||
    decide (c.toNat = 46 ∨ c.toNat = 95 ∨ c.toNat = 37 ∨ c.toNat = 43 ∨ c.toNat = 45)

/-- Domain class [A-Za-z0-9.-]. -/
def isDomainChar (c : Char) : Bool :=
  isAsciiAlpha c || isAsciiDigit c || decide (c.toNat = 46 ∨ c.toNat = 45)

/-- The class [A-Z|a-z] the source writes for the top-level domain: letters
and, by the literal bar inside the brackets, the character '|' (code 124). -/
def isTldChar (c : Char) : Bool := isAsciiAlpha c || decide (c.toNat = 124)

/-- The class the spec describes for the top-level domain: letters only. -/
def isTldLetter (c : Char) : Bool := isAsciiAlpha c

/-- hi, hi-1, ..., lo (empty when hi < lo): the order in which a greedy
regex quantifier tries repetition counts while backtracking. -/
def descRange : Nat → Nat → List Nat
  | 0, lo => if lo = 0 then [0] else []
  | n + 1, lo => if n + 1 < lo then [] else (n + 1) :: descRange n lo

/-- One attempt of the email pattern at start position i, greedy with
backtracking exactly as the regex engine runs it: word boundary, one or
more local characters, '@', one or more domain characters, '.', two or
more tld characters, word boundary.  Returns the matched substring. -/
def matchEmailAt (s : List Char) (i : Nat) : Option (List Char) :=
  if boundary s i then
    (descRange ((s.drop i).takeWhile isLocalChar).length 1).findSome? fun a =>
      if s[i + a]? = some '@' then
        (descRange ((s.drop (i + a + 1)).takeWhile isDomainChar).length 1).findSome? fun b =>
          if s[i + a + 1 + b]? = some '.' then
            (descRange ((s.drop (i + a + 1 + b + 1)).takeWhile isTldChar).length 2).findSome? fun c =>
              if boundary s (i + (a + 1 + b + 1 + c)) then
                some (sliceAt s i (a + 1 + b + 1 + c))
              else none
          else none
      else none
  else none

/-- Scan start positions 0, 1, ..., n-1 and keep the earliest hit: the
order re.findall visits candidate starts. -/
def firstSomeUpTo {α : Type} (f : Nat → Option α) : Nat → Option α
  | 0 => none
  | n + 1 =>
    match firstSomeUpTo f n with
    | some r => some r
    | none => f n

/-- The sentinel both field extractors return on no match. -/
def notFound : List Char := "Not found".data

/-- extract_email: the first match of the email pattern anywhere in the
text, else the sentinel (re.findall collects full matches here because the
pattern has no groups, and the code takes element 0). -/
def extract_email (s : List Char) : List Char :=
  match firstSomeUpTo (matchEmailAt s) (s.length + 1) with
  | some m => m
  | none => notFound

/-- Declarative shape of an email match: m occurs at position i of s and
splits as local-part, '@', domain, '.', tld with the classes given; when
bounded is true a regex word boundary is also required at both ends.
With tldc := isTldLetter and bounded := false this is the claim's own
wording; with tldc := isTldChar and bounded := true it describes the
source pattern. -/
def emailShapeAt (tldc : Char → Bool) (bounded : Bool)
    (s : List Char) (i : Nat) (m : List Char) : Bool :=
  (List.range (s.length + 1)).any fun a =>
    (List.range (s.length + 1)).any fun b =>
      (List.range (s.length + 1)).any fun c =>
        decide (1 ≤ a) &&
        (decide (1 ≤ b) &&
        (decide (2 ≤ c) &&
        (decide (i + (a + 1 + b + 1 + c) ≤ s.length) &&
        (decide (m = sliceAt s i (a + 1 + b + 1 + c)) &&
        ((sliceAt s i a).all isLocalChar &&
        (decide (s[i + a]? = some '@') &&
        ((sliceAt s (i + a + 1) b).all isDomainChar &&
        (decide (s[i + a + 1 + b]? = some '.') &&
        ((sliceAt s (i + a + 1 + b + 1) c).all tldc &&
        (!bounded || (boundary s i && boundary s (i + (a + 1 + b + 1 + c)))))))))))))

/-- Whether m is an email-shaped substring of s at any position. -/
def emailShapeSomewhere (tldc : Char → Bool) (bounded : Bool)
    (s m : List Char) : Bool :=
  (List.range (s.length + 1)).any fun i => emailShapeAt tldc bounded s i m

/- ===== extract_phone (lines 97-101) ===== -/

/-- The separator class [-.\s] of the phone pattern. -/
def isSepChar (c : Char) : Bool :=
  decide (c.toNat = 45 ∨ c.toNat = 46) || isPySpace c

/-- Whether exactly n digits sit at position i. -/
def digitsAt (s : List Char) (i n : Nat) : Bool :=
  decide ((sliceAt s i n).length = n) && (sliceAt s i n).all isAsciiDigit

/-- The consumption lengths an optional single-character element tries, in
greedy order: the character if it is there, then nothing. -/
def optLens (present : Bool) : List Nat := if present then [1, 0] else [0]

/-- The part of the phone pattern after the optional country-code group:
optional '(' (40), three digits, optional ')' (41), optional separator,
three digits, optional separator, four digits.  Returns the consumed
length, trying alternatives in the engine's greedy order. -/
def matchPhoneRestAt (s : List Char) (i : Nat) : Option Nat :=
  (optLens ((s[i]?).any fun c => decide (c.toNat = 40))).findSome? fun p1 =>
    if digitsAt s (i + p1) 3 then
      (optLens ((s[i + p1 + 3]?).any fun c => decide (c.toNat = 41))).findSome? fun p2 =>
        (optLens ((s[i + p1 + 3 + p2]?).any isSepChar)).findSome? fun s1 =>
          if digitsAt s (i + p1 + 3 + p2 + s1) 3 then
            (optLens ((s[i + p1 + 3 + p2 + s1 + 3]?).any isSepChar)).findSome? fun s2 =>
              if digitsAt s (i + p1 + 3 + p2 + s1 + 3 + s2) 4 then
                some (p1 + 3 + p2 + s1 + 3 + s2 + 4)
              else none
          else none
    else none

/-- One attempt of the whole phone pattern at position i.  The first
component is what re.findall reports for the single capturing group
(the optional country-code part: optional '+' (43), one to three digits,
optional separator) - the empty string when the group does not
participate; the second component is the full match. -/
def matchPhoneAt (s : List Char) (i : Nat) : Option (List Char × List Char) :=
  let withGroup :=
    (optLens ((s[i]?).any fun c => decide (c.toNat = 43))).findSome? fun pl =>
      (descRange (min 3 ((s.drop (i + pl)).takeWhile isAsciiDigit).length) 1).findSome? fun d1 =>
        (optLens ((s[i + pl + d1]?).any isSepChar)).findSome? fun s1 =>
          (matchPhoneRestAt s (i + pl + d1 + s1)).map fun r =>
            (sliceAt s i (pl + d1 + s1), sliceAt s i (pl + d1 + s1 + r))
  match withGroup with
  | some gm => some gm
  | none => (matchPhoneRestAt s i).map fun r => (([] : List Char), sliceAt s i r)

/-- extract_phone: re.findall with one capturing group returns the group
texts, so the code yields the first match's group (often empty), else the
sentinel. -/
def extract_phone (s : List Char) : List Char :=
  match firstSomeUpTo (matchPhoneAt s) (s.length + 1) with
  | some gm => gm.1
  | none => notFound

/-- The full text of the first phone-pattern match, for comparison with
what the claim says the extractor returns. -/
def phoneFirstFullMatch (s : List Char) : Option (List Char) :=
  (firstSomeUpTo (matchPhoneAt s) (s.length + 1)).map fun gm => gm.2

/- ===== Orchestrator: extract_text_from_pdf (71-80), generate_wordcloud
(142-178), analyze_resume (208-244) ===== -/

/-- A submitted document as the PDF reader sees it: either a readable
document with per-page text, or one whose parsing raises an exception
carrying a message. -/
inductive PdfFile where
  | good : List (List Char) → PdfFile
  | corrupt : List Char → PdfFile

/-- The f-string "Error extracting text: " followed by the exception text
(line 80). -/
def extractionErrorText (err : List Char) : List Char :=
  "Error extracting text: ".data ++ err

/-- extract_text_from_pdf: concatenate the pages' text in order; when
opening raises, return the error message instead of propagating. -/
def extract_text_from_pdf : PdfFile → List Char
  | PdfFile.good pages => pages.foldl (fun acc p => acc ++ p) []
  | PdfFile.corrupt err => extractionErrorText err

/-- ' '.join of a token list. -/
def joinSpace : List (List Char) → List Char
  | [] => []
  | [w] => w
  | w :: ws => w ++ ' ' :: joinSpace ws

/-- The text generate_wordcloud hands to the external renderer (lines
144-155): cleaned, tokenized, stopword- and short-token-filtered (no
alphabetic-only filter here), joined by single spaces. -/
def wordcloudText (tok : List Char → List (List Char))
    (stop : List (List Char)) (text : List Char) : List Char :=
  joinSpace ((tok (clean_text text)).filter fun w =>
    !(stop.contains w) && decide (2 < w.length))

/-- The record analyze_resume builds (lines 236-244); the word-cloud buffer
is represented by the text fed to the renderer. -/
structure AnalysisResult where
  text : List Char
  email : List Char
  phone : List Char
  skills : List (List Char × List (List Char))
  word_frequency : List (List Char × Nat)
  wordcloud : List Char
  job_match : Option (ℚ × Finset (List Char) × Finset (List Char))
deriving DecidableEq

/-- analyze_resume: run every stage on the extracted text; job matching
only when a job description is supplied and non-empty (Python truthiness
of the optional argument). -/
def analyze_resume (tok : List Char → List (List Char))
    (stop : List (List Char)) (pdf : PdfFile)
    (job_description : Option (List Char)) : AnalysisResult :=
  let text := extract_text_from_pdf pdf
  ⟨text, extract_email text, extract_phone text, extract_skills text,
    get_word_frequency tok stop text 20, wordcloudText tok stop text,
    match job_description with
    | none => none
    | some jd =>
      if jd.isEmpty then none
      else some (calculate_job_match tok stop text jd)⟩

/-- The index of the first occurrence of a in l (l.length when absent):
list.index in Python, used to state first-occurrence tie-breaking. -/
def firstIdx (a : List Char) : List (List Char) → Nat
  | [] => 0
  | b :: t => if b = a then 0 else firstIdx a t + 1

/- ===== Theorems.  First: character-level facts ===== -/

theorem char_eq_of_toNat_eq {c d : Char} (h : c.toNat = d.toNat) : c = d :=
  Char.ext (UInt32.ext h)

theorem char_toNat_ofNat {n : Nat} (h : n < 55296) : (Char.ofNat n).toNat = n := by
  have hv : n.isValidChar := Or.inl h
  simp [Char.ofNat, hv, Char.ofNatAux, Char.toNat, UInt32.toNat, BitVec.toNat_ofNatLt]

theorem toLower_of_not_upper {c : Char} (h : isAsciiUpper c = false) :
    Char.toLower c = c := by
  have hn : ¬(65 ≤ c.toNat ∧ c.toNat ≤ 90) := by
    simpa [isAsciiUpper] using h
  simp only [Char.toLower]
  rw [if_neg (by simpa [ge_iff_le] using hn)]

theorem toLower_of_upper {c : Char} (h : isAsciiUpper c = true) :
    isAsciiLower (Char.toLower c) = true := by
  have hn : 65 ≤ c.toNat ∧ c.toNat ≤ 90 := by
    simpa [isAsciiUpper] using h
  simp only [Char.toLower]
  rw [if_pos (by simpa [ge_iff_le] using hn)]
  simp only [isAsciiLower, char_toNat_ofNat (show c.toNat + 32 < 55296 by omega),
    decide_eq_true_eq]
  omega

theorem toLower_never_upper (c : Char) : isAsciiUpper (Char.toLower c) = false := by
  by_cases h : isAsciiUpper c = true
  · have := toLower_of_upper h
    revert this
    simp [isAsciiLower, isAsciiUpper]
    omega
  · rw [toLower_of_not_upper (by simpa using h)]
    simpa using h

theorem space_of_pySpace_out {c : Char} (ho : cleanOutChar c = true)
    (hs : isPySpace c = true) : c = ' ' := by
  apply char_eq_of_toNat_eq
  revert ho hs
  simp [cleanOutChar, isPySpace, isAsciiLower, isAsciiDigit]
  omega

theorem subLower_classify (c : Char) :
    isPySpace (if cleanKeep (Char.toLower c) then Char.toLower c else ' ') = false →
    cleanOutChar (if cleanKeep (Char.toLower c) then Char.toLower c else ' ') = true := by
  by_cases hk : cleanKeep (Char.toLower c) = true
  · rw [if_pos hk]
    intro hs
    have hnu := toLower_never_upper c
    revert hk hs hnu
    simp [cleanKeep, cleanOutChar, isPySpace, isAsciiAlpha, isAsciiLower,
      isAsciiUpper, isAsciiDigit]
    omega
  · rw [if_neg hk]
    intro hs
    exact absurd hs (by decide)

theorem cleanOut_keep {c : Char} (h : cleanOutChar c = true) : cleanKeep c = true := by
  revert h
  simp [cleanOutChar, cleanKeep, isPySpace, isAsciiAlpha, isAsciiLower,
    isAsciiUpper, isAsciiDigit]
  omega

theorem cleanOut_not_upper {c : Char} (h : cleanOutChar c = true) :
    isAsciiUpper c = false := by
  revert h
  simp [cleanOutChar, isAsciiAlpha, isAsciiLower, isAsciiUpper, isAsciiDigit]
  omega

/- ===== collapseWS and pyStrip lemmas ===== -/

theorem collapseWS_mem : ∀ l c, c ∈ collapseWS l →
    c = ' ' ∨ (c ∈ l ∧ isPySpace c = false) := by
  intro l
  induction l with
  | nil => simp [collapseWS]
  | cons a t ih =>
    cases t with
    | nil =>
      intro c hc
      by_cases ha : isPySpace a = true
      · simp [collapseWS, ha] at hc
        exact Or.inl hc
      · simp [collapseWS, ha] at hc
        subst hc
        exact Or.inr ⟨List.mem_singleton.mpr rfl, by simpa using ha⟩
    | cons b u =>
      intro c hc
      simp only [collapseWS] at hc
      by_cases hab : (isPySpace a && isPySpace b) = true
      · rw [if_pos hab] at hc
        rcases ih c hc with h | ⟨hm, hsp⟩
        · exact Or.inl h
        · exact Or.inr ⟨List.mem_cons_of_mem a hm, hsp⟩
      · rw [if_neg hab] at hc
        rcases List.mem_cons.mp hc with h | h
        · by_cases ha : isPySpace a = true
          · rw [if_pos ha] at h
            exact Or.inl h
          · rw [if_neg ha] at h
            subst h
            exact Or.inr ⟨List.mem_cons_self c (b :: u), by simpa using ha⟩
        · rcases ih c h with h2 | ⟨hm, hsp⟩
          · exact Or.inl h2
          · exact Or.inr ⟨List.mem_cons_of_mem a hm, hsp⟩

theorem collapseWS_head_not_space : ∀ b u, isPySpace b = false →
    ∀ c, (collapseWS (b :: u)).head? = some c → isPySpace c = false := by
  intro b u hb c hc
  cases u with
  | nil => simp [collapseWS, hb] at hc; subst hc; exact hb
  | cons d v =>
    simp only [collapseWS] at hc
    rw [if_neg (by simp [hb])] at hc
    rw [if_neg (by simp [hb])] at hc
    simp at hc
    subst hc
    exact hb

theorem collapseWS_chain : ∀ l,
    List.Chain' (fun a b => ¬(isPySpace a = true ∧ isPySpace b = true))
      (collapseWS l) := by
  intro l
  induction l with
  | nil => simp [collapseWS]
  | cons a t ih =>
    cases t with
    | nil =>
      by_cases ha : isPySpace a = true
      · simp [collapseWS, ha]
      · simp [collapseWS, ha]
    | cons b u =>
      simp only [collapseWS]
      by_cases hab : (isPySpace a && isPySpace b) = true
      · rw [if_pos hab]; exact ih
      · rw [if_neg hab]
        apply List.chain'_cons'.mpr
        refine ⟨?_, ih⟩
        intro y hy
        by_cases ha : isPySpace a = true
        · have hb : isPySpace b = false := by
            cases hpb : isPySpace b
            · rfl
            · exact absurd (by simp [ha, hpb]) hab
          rw [if_pos ha]
          intro hcon
          exact absurd (collapseWS_head_not_space b u hb y hy) (by simp [hcon.2])
        · rw [if_neg ha]
          intro hcon
          exact absurd hcon.1 (by simpa using ha)

theorem collapseWS_fixed : ∀ l, (∀ c ∈ l, isPySpace c = true → c = ' ') →
    List.Chain' (fun a b => ¬(isPySpace a = true ∧ isPySpace b = true)) l →
    collapseWS l = l := by
  intro l
  induction l with
  | nil => intro _ _; rfl
  | cons a t ih =>
    cases t with
    | nil =>
      intro hmem _
      by_cases ha : isPySpace a = true
      · simp [collapseWS, ha, hmem a (List.mem_singleton.mpr rfl) ha]
      · simp [collapseWS, ha]
    | cons b u =>
      intro hmem hch
      have hpair : ¬(isPySpace a = true ∧ isPySpace b = true) :=
        (List.chain'_cons.mp hch).1
      simp only [collapseWS]
      rw [if_neg (by simpa [Bool.and_eq_true] using hpair)]
      have htail : collapseWS (b :: u) = b :: u :=
        ih (fun c hc hsp => hmem c (List.mem_cons_of_mem a hc) hsp)
          (List.chain'_cons.mp hch).2
      rw [htail]
      by_cases ha : isPySpace a = true
      · rw [if_pos ha, hmem a (List.mem_cons_self a _) ha]
      · rw [if_neg ha]

theorem head_dropWhile_not {p : Char → Bool} : ∀ l c,
    (List.dropWhile p l).head? = some c → p c = false := by
  intro l
  induction l with
  | nil => simp [List.dropWhile]
  | cons a t ih =>
    intro c hc
    by_cases ha : p a = true
    · rw [List.dropWhile_cons_of_pos ha] at hc
      exact ih c hc
    · rw [List.dropWhile_cons_of_neg ha] at hc
      simp at hc
      subst hc
      simpa using ha

theorem getLast_of_suffix {l₁ l₂ : List Char} (h : l₁ <:+ l₂) (hne : l₁ ≠ []) :
    l₁.getLast? = l₂.getLast? := by
  obtain ⟨t, ht⟩ := h
  subst ht
  rw [List.getLast?_append]
  cases hl : l₁.getLast? with
  | none => exact absurd (List.getLast?_eq_none_iff.mp hl) hne
  | some x => rfl

theorem pyStrip_mem {l : List Char} {c : Char} (h : c ∈ pyStrip l) : c ∈ l := by
  unfold pyStrip at h
  rw [List.mem_reverse] at h
  have h2 := (List.dropWhile_sublist isPySpace).mem h
  rw [List.mem_reverse] at h2
  exact (List.dropWhile_sublist isPySpace).mem h2

theorem chain_of_suffix {R : Char → Char → Prop} {l1 l2 : List Char}
    (h : List.Chain' R l2) (hs : l1 <:+ l2) : List.Chain' R l1 := by
  obtain ⟨t, ht⟩ := hs
  subst ht
  exact (List.chain'_append.mp h).2.1

theorem head_get_zero (l : List Char) (h : 0 < l.length) :
    l.head? = some (l.get ⟨0, h⟩) := by
  cases l with
  | nil => simp at h
  | cons a t => rfl

theorem pyStrip_chain {R : Char → Char → Prop} {l : List Char} (h : List.Chain' R l) :
    List.Chain' R (pyStrip l) := by
  unfold pyStrip
  rw [List.chain'_reverse]
  refine chain_of_suffix ?_ (List.dropWhile_suffix isPySpace)
  rw [List.chain'_reverse]
  apply (chain_of_suffix h (List.dropWhile_suffix isPySpace)).imp
  intro a b hab
  exact hab

theorem pyStrip_head_not_space {l : List Char} {c : Char}
    (h : (pyStrip l).head? = some c) : isPySpace c = false := by
  unfold pyStrip at h
  rw [List.head?_reverse] at h
  have hne : List.dropWhile isPySpace (List.dropWhile isPySpace l).reverse ≠ [] := by
    intro hnil
    rw [hnil] at h
    simp at h
  rw [getLast_of_suffix (List.dropWhile_suffix isPySpace) hne] at h
  rw [List.getLast?_reverse] at h
  exact head_dropWhile_not _ _ h

theorem pyStrip_getLast_not_space {l : List Char} {c : Char}
    (h : (pyStrip l).getLast? = some c) : isPySpace c = false := by
  unfold pyStrip at h
  rw [List.getLast?_reverse] at h
  exact head_dropWhile_not _ _ h

theorem pyStrip_fixed {l : List Char}
    (hh : ∀ c, l.head? = some c → isPySpace c = false)
    (hl : ∀ c, l.getLast? = some c → isPySpace c = false) : pyStrip l = l := by
  unfold pyStrip
  have h1 : List.dropWhile isPySpace l = l := by
    rw [List.dropWhile_eq_self_iff]
    intro hpos
    have hx := hh (l.get ⟨0, hpos⟩) (head_get_zero l hpos)
    simp only [List.get_eq_getElem] at hx
    simp [hx]
  rw [h1]
  have h2 : List.dropWhile isPySpace l.reverse = l.reverse := by
    rw [List.dropWhile_eq_self_iff]
    intro hpos
    have hsome : l.reverse.head? = some (l.reverse.get ⟨0, hpos⟩) :=
      head_get_zero l.reverse hpos
    have hx : isPySpace (l.reverse.get ⟨0, hpos⟩) = false := by
      apply hl
      rw [← List.head?_reverse]
      exact hsome
    simp only [List.get_eq_getElem, List.getElem_reverse] at hx
    simpa using hx
  rw [h2, List.reverse_reverse]

theorem clean_text_core (s : List Char) :
    (∀ c ∈ clean_text s, cleanOutChar c = true)
    ∧ List.Chain' (fun a b => ¬(isPySpace a = true ∧ isPySpace b = true)) (clean_text s)
    ∧ (∀ c, (clean_text s).head? = some c → isPySpace c = false)
    ∧ (∀ c, (clean_text s).getLast? = some c → isPySpace c = false) := by
  have hmap : subSpecial (s.map Char.toLower)
      = s.map fun c => if cleanKeep (Char.toLower c) then Char.toLower c else ' ' := by
    unfold subSpecial
    rw [List.map_map]
    rfl
  refine ⟨?_, ?_, ?_, ?_⟩
  · intro c hc
    unfold clean_text at hc
    have h1 := pyStrip_mem hc
    rcases collapseWS_mem _ c h1 with h | ⟨hm, hsp⟩
    · subst h; decide
    · rw [hmap] at hm
      obtain ⟨x, hx, hxc⟩ := List.mem_map.mp hm
      rw [← hxc] at hsp ⊢
      exact subLower_classify x hsp
  · unfold clean_text
    exact pyStrip_chain (collapseWS_chain _)
  · intro c h
    exact pyStrip_head_not_space h
  · intro c h
    exact pyStrip_getLast_not_space h

theorem clean_text_fixed {t : List Char}
    (hmem : ∀ c ∈ t, cleanOutChar c = true)
    (hch : List.Chain' (fun a b => ¬(isPySpace a = true ∧ isPySpace b = true)) t)
    (hhd : ∀ c, t.head? = some c → isPySpace c = false)
    (hlast : ∀ c, t.getLast? = some c → isPySpace c = false) :
    clean_text t = t := by
  unfold clean_text
  have h1 : t.map Char.toLower = t := by
    have h0 : t.map Char.toLower = t.map id :=
      List.map_congr_left fun a ha => toLower_of_not_upper (cleanOut_not_upper (hmem a ha))
    rw [h0, List.map_id]
  have h2 : subSpecial t = t := by
    unfold subSpecial
    have h0 : (t.map fun c => if cleanKeep c then c else ' ') = t.map id :=
      List.map_congr_left fun a ha => by simp [cleanOut_keep (hmem a ha)]
    rw [h0, List.map_id]
  have h3 : collapseWS t = t :=
    collapseWS_fixed t (fun c hc hsp => space_of_pySpace_out (hmem c hc) hsp) hch
  have h4 : pyStrip t = t := pyStrip_fixed hhd hlast
  rw [h1, h2, h3, h4]

/-- Claim C7: the text normalizer clean_text is idempotent. -/
theorem clean_text_idempotent : ∀ s : List Char,
    clean_text (clean_text s) = clean_text s := by
  intro s
  obtain ⟨hmem, hch, hhd, hlast⟩ := clean_text_core s
  exact clean_text_fixed hmem hch hhd hlast

/-- Claim C8: every clean_text output consists only of lowercase letters,
digits, plus, hash, dot and space, with no two consecutive spaces and no
leading or trailing space. -/
theorem clean_text_alphabet : ∀ s : List Char,
    (clean_text s).all cleanOutChar = true
    ∧ List.Chain' (fun a b => ¬(a = ' ' ∧ b = ' ')) (clean_text s)
    ∧ (clean_text s).head? ≠ some ' '
    ∧ (clean_text s).getLast? ≠ some ' ' := by
  intro s
  obtain ⟨hmem, hch, hhd, hlast⟩ := clean_text_core s
  refine ⟨List.all_eq_true.mpr hmem, ?_, ?_, ?_⟩
  · apply hch.imp
    intro a b hab hcon
    refine hab ⟨?_, ?_⟩
    · rw [hcon.1]; decide
    · rw [hcon.2]; decide
  · intro h
    exact absurd (hhd ' ' h) (by decide)
  · intro h
    exact absurd (hlast ' ' h) (by decide)

/- ===== Job matcher ===== -/

theorem calculate_job_match_eq (tok : List Char → List (List Char))
    (stop : List (List Char)) (resume job : List Char) :
    calculate_job_match tok stop resume job =
      if significantTokens tok stop job = ∅ then (0, ∅, ∅)
      else (((significantTokens tok stop resume ∩ significantTokens tok stop job).card : ℚ)
              / ((significantTokens tok stop job).card : ℚ) * 100,
            significantTokens tok stop resume ∩ significantTokens tok stop job,
            significantTokens tok stop job \ significantTokens tok stop resume) := rfl

/-- Claim C4: the matching and missing sets always partition the filtered
job-description token set. -/
theorem calculate_job_match_partition :
    ∀ (tok : List Char → List (List Char)) (stop : List (List Char))
      (resume job : List Char),
    (calculate_job_match tok stop resume job).2.1 ∪
        (calculate_job_match tok stop resume job).2.2 =
      significantTokens tok stop job
    ∧ (calculate_job_match tok stop resume job).2.1 ∩
        (calculate_job_match tok stop resume job).2.2 = ∅ := by
  intro tok stop resume job
  rw [calculate_job_match_eq]
  by_cases h : significantTokens tok stop job = ∅
  · rw [if_pos h]
    simp [h]
  · rw [if_neg h]
    constructor
    · ext x
      simp only [Finset.mem_union, Finset.mem_inter, Finset.mem_sdiff]
      tauto
    · ext x
      simp only [Finset.mem_inter, Finset.mem_sdiff, Finset.not_mem_empty, iff_false]
      tauto

/-- Claim C5: the job-match percentage always lies in the interval from 0
to 100; it is exactly 100 precisely when the filtered job tokens are
non-empty and all appear among the resume's filtered tokens; it is exactly
0 precisely when the job has no significant tokens or the overlap is empty;
and an empty filtered job-token set yields the degenerate triple. -/
theorem calculate_job_match_percentage :
    ∀ (tok : List Char → List (List Char)) (stop : List (List Char))
      (resume job : List Char),
    0 ≤ (calculate_job_match tok stop resume job).1
    ∧ (calculate_job_match tok stop resume job).1 ≤ 100
    ∧ ((calculate_job_match tok stop resume job).1 = 100 ↔
        (significantTokens tok stop job ≠ ∅ ∧
          significantTokens tok stop job ⊆ significantTokens tok stop resume))
    ∧ ((calculate_job_match tok stop resume job).1 = 0 ↔
        (significantTokens tok stop job = ∅ ∨
          significantTokens tok stop resume ∩ significantTokens tok stop job = ∅))
    ∧ (significantTokens tok stop job = ∅ →
        calculate_job_match tok stop resume job = (0, ∅, ∅)) := by
  intro tok stop resume job
  rw [calculate_job_match_eq]
  by_cases h : significantTokens tok stop job = ∅
  · rw [if_pos h]
    refine ⟨le_refl 0, by norm_num, ?_, ?_, fun _ => rfl⟩
    · simp [h]
    · simp [h]
  · rw [if_neg h]
    dsimp only
    have hn : (significantTokens tok stop job).card ≠ 0 := by
      simpa [Finset.card_eq_zero] using h
    have hnQ : ((significantTokens tok stop job).card : ℚ) ≠ 0 := by
      exact_mod_cast hn
    have hnQpos : (0 : ℚ) < ((significantTokens tok stop job).card : ℚ) := by
      have : 0 < (significantTokens tok stop job).card := Nat.pos_of_ne_zero hn
      exact_mod_cast this
    have hle : (significantTokens tok stop resume ∩ significantTokens tok stop job).card ≤
        (significantTokens tok stop job).card :=
      Finset.card_le_card Finset.inter_subset_right
    refine ⟨?_, ?_, ?_, ?_, fun hc => absurd hc h⟩
    · positivity
    · have h1 : ((significantTokens tok stop resume ∩ significantTokens tok stop job).card : ℚ)
          / ((significantTokens tok stop job).card : ℚ) ≤ 1 := by
        rw [div_le_one hnQpos]
        exact_mod_cast hle
      calc ((significantTokens tok stop resume ∩ significantTokens tok stop job).card : ℚ)
            / ((significantTokens tok stop job).card : ℚ) * 100 ≤ 1 * 100 :=
              mul_le_mul_of_nonneg_right h1 (by norm_num)
        _ = 100 := by norm_num
    · constructor
      · intro hx
        have hdiv : ((significantTokens tok stop resume ∩ significantTokens tok stop job).card : ℚ)
            / ((significantTokens tok stop job).card : ℚ) = 1 := by
          have h1 : ((significantTokens tok stop resume ∩ significantTokens tok stop job).card : ℚ)
              / ((significantTokens tok stop job).card : ℚ) * 100 = 1 * 100 := by
            rw [hx]; norm_num
          exact mul_right_cancel₀ (by norm_num) h1
        rw [div_eq_iff hnQ, one_mul] at hdiv
        have hcard : (significantTokens tok stop resume ∩ significantTokens tok stop job).card =
            (significantTokens tok stop job).card := by exact_mod_cast hdiv
        have hset : significantTokens tok stop resume ∩ significantTokens tok stop job =
            significantTokens tok stop job :=
          Finset.eq_of_subset_of_card_le Finset.inter_subset_right (le_of_eq hcard.symm)
        exact ⟨h, Finset.inter_eq_right.mp hset⟩
      · intro hx
        have hset : significantTokens tok stop resume ∩ significantTokens tok stop job =
            significantTokens tok stop job := Finset.inter_eq_right.mpr hx.2
        rw [hset, div_self hnQ, one_mul]
    · constructor
      · intro hx
        rcases mul_eq_zero.mp hx with h0 | h0
        · rcases div_eq_zero_iff.mp h0 with h1 | h1
          · right
            rw [← Finset.card_eq_zero]
            exact_mod_cast h1
          · exact absurd h1 hnQ
        · norm_num at h0
      · intro hx
        rcases hx with h0 | h0
        · exact absurd h0 h
        · rw [h0]
          norm_num

/-- Claim C10: with an empty filtered resume-token set and a non-empty
filtered job-token set the matcher returns percentage 0, an empty matching
set and the whole filtered job-token set as missing, without any
special-casing of the empty resume side. -/
theorem calculate_job_match_empty_resume :
    ∀ (tok : List Char → List (List Char)) (stop : List (List Char))
      (resume job : List Char),
    significantTokens tok stop resume = ∅ →
    significantTokens tok stop job ≠ ∅ →
    calculate_job_match tok stop resume job =
      (0, ∅, significantTokens tok stop job) := by
  intro tok stop resume job hr hj
  rw [calculate_job_match_eq, if_neg hj, hr]
  simp

/-- Concrete instance of the empty-resume case: an empty resume against the
job description "python developer". -/
theorem calculate_job_match_empty_resume_witness :
    calculate_job_match splitWS basicStopwords [] "python developer".data =
      (0, ∅, significantTokens splitWS basicStopwords "python developer".data) :=
  calculate_job_match_empty_resume splitWS basicStopwords [] "python developer".data
    (by decide) (by decide)

/- ===== Orchestrator and phone extractor ===== -/

/-- Claim C9: when document extraction fails, analyze_resume still builds a
complete record, substituting the extraction error message for the text and
running every downstream stage (email, phone, skills, frequency, word
cloud, optional job match) on that message. -/
theorem analyze_resume_extraction_failure :
    ∀ (tok : List Char → List (List Char)) (stop : List (List Char))
      (err : List Char) (jd : Option (List Char)),
    analyze_resume tok stop (PdfFile.corrupt err) jd =
      ⟨extractionErrorText err,
       extract_email (extractionErrorText err),
       extract_phone (extractionErrorText err),
       extract_skills (extractionErrorText err),
       get_word_frequency tok stop (extractionErrorText err) 20,
       wordcloudText tok stop (extractionErrorText err),
       match jd with
       | none => none
       | some j =>
         if j.isEmpty then none
         else some (calculate_job_match tok stop (extractionErrorText err) j)⟩ := by
  intro tok stop err jd
  rfl

/-- Claim C1 (code bug witness): on "123-456-7890" the first full match of
the phone pattern is the whole number, yet extract_phone returns the empty
string - re.findall reports the capturing group, which did not participate
in this match; on text with no match the sentinel is returned. -/
theorem extract_phone_group_bug :
    extract_phone "123-456-7890".data = []
    ∧ phoneFirstFullMatch "123-456-7890".data = some "123-456-7890".data
    ∧ "123-456-7890".data ≠ ([] : List Char)
    ∧ extract_phone "no phone here".data = notFound := by
  refine ⟨by decide, by decide, by decide, by decide⟩

/- ===== Skill matcher ===== -/

theorem key_unique {l : List (List Char × List (List Char))}
    (hnd : (l.map Prod.fst).Nodup) {a : List Char} {b1 b2 : List (List Char)}
    (h1 : (a, b1) ∈ l) (h2 : (a, b2) ∈ l) : b1 = b2 := by
  induction l with
  | nil => cases h1
  | cons e t ih =>
    have hnd2 : (t.map Prod.fst).Nodup := (List.nodup_cons.mp hnd).2
    have hhd : e.1 ∉ t.map Prod.fst := (List.nodup_cons.mp hnd).1
    rcases List.mem_cons.mp h1 with he1 | ht1 <;>
      rcases List.mem_cons.mp h2 with he2 | ht2
    · rw [← he2] at he1
      exact congrArg Prod.snd he1
    · exfalso
      apply hhd
      rw [← he1]
      exact List.mem_map.mpr ⟨(a, b2), ht2, rfl⟩
    · exfalso
      apply hhd
      rw [← he2]
      exact List.mem_map.mpr ⟨(a, b1), ht1, rfl⟩
    · exact ih hnd2 ht1 ht2

theorem skill_keys_nodup : (skill_keywords.map Prod.fst).Nodup := by decide

theorem reportsSkill_iff {text cat term : List Char}
    {skills : List (List Char)} (hcat : (cat, skills) ∈ skill_keywords)
    (hterm : term ∈ skills) :
    reportsSkill (extract_skills text) cat term = true ↔
      boundedSearch term (text.map Char.toLower) = true := by
  constructor
  · intro h
    obtain ⟨cs, hcs, hp⟩ := List.any_eq_true.mp h
    obtain ⟨hone, htwo⟩ := Bool.and_eq_true_iff.mp hp
    obtain ⟨cs1, hcs1, hcs2⟩ :=
      List.mem_map.mp (List.mem_of_mem_filter hcs)
    have hkey : cs.1 = cat := by
      simpa using hone
    have hcs1key : cs1.1 = cat := by
      rw [← hcs2] at hkey
      exact hkey
    have hskills : cs1.2 = skills := by
      apply key_unique skill_keys_nodup _ hcat
      rw [← hcs1key]
      exact hcs1
    have hmem : term ∈ cs.2 := by
      simpa [List.contains, List.elem_iff] using htwo
    rw [← hcs2] at hmem
    dsimp only at hmem
    rw [hskills] at hmem
    exact (List.mem_filter.mp hmem).2
  · intro h
    apply List.any_eq_true.mpr
    refine ⟨(cat, skills.filter fun sk => boundedSearch sk (text.map Char.toLower)),
      ?_, ?_⟩
    · apply List.mem_filter.mpr
      constructor
      · exact List.mem_map.mpr ⟨(cat, skills), hcat, rfl⟩
      · have : term ∈ skills.filter fun sk => boundedSearch sk (text.map Char.toLower) :=
          List.mem_filter.mpr ⟨hterm, h⟩
        cases hfil : skills.filter fun sk => boundedSearch sk (text.map Char.toLower) with
        | nil =>
          rw [hfil] at this
          cases this
        | cons x xs => simp [hfil]
    · apply Bool.and_eq_true_iff.mpr
      constructor
      · simp
      · have hm : term ∈ skills.filter fun sk => boundedSearch sk (text.map Char.toLower) :=
          List.mem_filter.mpr ⟨hterm, by simpa using h⟩
        simpa [List.contains, List.elem_iff] using hm

/-- Claim C3 (amended): a taxonomy term is reported exactly when it occurs
in the lowercased text with a regex word boundary on each side; in
particular "Pythonic" does not match the skill "python" while "I use
Python daily" does. -/
theorem extract_skills_word_boundary :
    (∀ (text cat term : List Char) (skills : List (List Char)),
      (cat, skills) ∈ skill_keywords → term ∈ skills →
      (reportsSkill (extract_skills text) cat term = true ↔
        boundedSearch term (text.map Char.toLower) = true))
    ∧ reportsSkill (extract_skills "I use Python daily".data)
        "programming".data "python".data = true
    ∧ reportsSkill (extract_skills "Pythonic".data)
        "programming".data "python".data = false := by
  refine ⟨?_, by decide, by decide⟩
  intro text cat term skills hcat hterm
  exact reportsSkill_iff hcat hterm

/-- Claim C3 counterexample: "c++" is a taxonomy term and occurs in
"uses c++ daily" as a whole word between token boundaries, yet
extract_skills does not report it - the regex word boundary after '+'
fails before a space or the end of the text. -/
theorem extract_skills_cpp_counterexample :
    wholeWordOccurs "c++".data ("uses c++ daily".data.map Char.toLower) = true
    ∧ (skill_keywords.any fun cs =>
        cs.1 == "programming".data && cs.2.contains "c++".data) = true
    ∧ reportsSkill (extract_skills "uses c++ daily".data)
        "programming".data "c++".data = false := by
  refine ⟨by decide, by decide, by decide⟩


/- ===== Word frequency ===== -/

theorem firstIdx_append_left {a : List Char} : ∀ {l : List (List Char)}
    (l2 : List (List Char)), a ∈ l → firstIdx a (l ++ l2) = firstIdx a l := by
  intro l
  induction l with
  | nil =>
    intro l2 h
    cases h
  | cons b t ih =>
    intro l2 h
    by_cases hb : b = a
    · simp [firstIdx, hb]
    · rw [List.cons_append]
      rw [show firstIdx a (b :: (t ++ l2)) = firstIdx a (t ++ l2) + 1 by
        simp [firstIdx, hb]]
      rw [show firstIdx a (b :: t) = firstIdx a t + 1 by simp [firstIdx, hb]]
      have hat : a ∈ t := by
        rcases List.mem_cons.mp h with h1 | h1
        · exact absurd h1.symm hb
        · exact h1
      rw [ih l2 hat]

theorem firstIdx_append_right {a : List Char} : ∀ {l : List (List Char)}
    (l2 : List (List Char)), a ∉ l →
    firstIdx a (l ++ l2) = l.length + firstIdx a l2 := by
  intro l
  induction l with
  | nil =>
    intro l2 _
    simp
  | cons b t ih =>
    intro l2 h
    have hb : ¬(b = a) := fun hc => h (by rw [hc]; exact List.mem_cons_self _ _)
    rw [List.cons_append]
    rw [show firstIdx a (b :: (t ++ l2)) = firstIdx a (t ++ l2) + 1 by
      simp [firstIdx, hb]]
    rw [ih l2 (fun hc => h (List.mem_cons_of_mem b hc))]
    simp only [List.length_cons]
    omega

theorem firstIdx_lt_length {a : List Char} : ∀ {l : List (List Char)}, a ∈ l →
    firstIdx a l < l.length := by
  intro l
  induction l with
  | nil =>
    intro h
    cases h
  | cons b t ih =>
    intro h
    by_cases hb : b = a
    · simp [firstIdx, hb]
    · rw [show firstIdx a (b :: t) = firstIdx a t + 1 by simp [firstIdx, hb]]
      have hat : a ∈ t := by
        rcases List.mem_cons.mp h with h1 | h1
        · exact absurd h1.symm hb
        · exact h1
      simpa [List.length_cons] using ih hat

theorem firstIdx_filter_lt (p : List Char → Bool) :
    ∀ (l : List (List Char)) (x y : List Char), x ∈ l.filter p → y ∈ l.filter p →
    firstIdx x (l.filter p) < firstIdx y (l.filter p) →
    firstIdx x l < firstIdx y l := by
  intro l
  induction l with
  | nil =>
    intro x y hx
    simp at hx
  | cons a t ih =>
    intro x y hx hy hlt
    by_cases hpa : p a = true
    · rw [List.filter_cons_of_pos hpa] at hx hy hlt
      by_cases hax : a = x
      · have hxy : ¬(a = y) := by
          intro hay
          rw [show firstIdx x (a :: t.filter p) = 0 by simp [firstIdx, hax]] at hlt
          rw [show firstIdx y (a :: t.filter p) = 0 by simp [firstIdx, hay]] at hlt
          omega
        rw [show firstIdx x (a :: t) = 0 by simp [firstIdx, hax]]
        rw [show firstIdx y (a :: t) = firstIdx y t + 1 by simp [firstIdx, hxy]]
        omega
      · by_cases hay : a = y
        · rw [show firstIdx y (a :: t.filter p) = 0 by simp [firstIdx, hay]] at hlt
          omega
        · rw [show firstIdx x (a :: t.filter p) = firstIdx x (t.filter p) + 1 by
            simp [firstIdx, hax]] at hlt
          rw [show firstIdx y (a :: t.filter p) = firstIdx y (t.filter p) + 1 by
            simp [firstIdx, hay]] at hlt
          have hxt : x ∈ t.filter p := by
            rcases List.mem_cons.mp hx with h1 | h1
            · exact absurd h1.symm hax
            · exact h1
          have hyt : y ∈ t.filter p := by
            rcases List.mem_cons.mp hy with h1 | h1
            · exact absurd h1.symm hay
            · exact h1
          rw [show firstIdx x (a :: t) = firstIdx x t + 1 by simp [firstIdx, hax]]
          rw [show firstIdx y (a :: t) = firstIdx y t + 1 by simp [firstIdx, hay]]
          have := ih x y hxt hyt (by omega)
          omega
    · rw [List.filter_cons_of_neg hpa] at hx hy hlt
      have hax : ¬(a = x) := by
        intro hc
        subst hc
        exact absurd (List.mem_filter.mp hx).2 (by simp [hpa])
      have hay : ¬(a = y) := by
        intro hc
        subst hc
        exact absurd (List.mem_filter.mp hy).2 (by simp [hpa])
      rw [show firstIdx x (a :: t) = firstIdx x t + 1 by simp [firstIdx, hax]]
      rw [show firstIdx y (a :: t) = firstIdx y t + 1 by simp [firstIdx, hay]]
      have := ih x y hx hy hlt
      omega

theorem bump_keys (w : List Char) (acc : List (List Char × Nat)) :
    (bumpCount w acc).map Prod.fst =
      if w ∈ acc.map Prod.fst then acc.map Prod.fst
      else acc.map Prod.fst ++ [w] := by
  induction acc with
  | nil => simp [bumpCount]
  | cons e t ih =>
    by_cases he : e.1 = w
    · simp [bumpCount, he]
    · simp only [bumpCount, if_neg he, List.map_cons]
      rw [ih]
      by_cases hw : w ∈ t.map Prod.fst
      · rw [if_pos hw, if_pos (by simp [hw])]
      · rw [if_neg hw, if_neg (by
          simp only [List.mem_cons]
          push_neg
          exact ⟨fun hc => he hc.symm, hw⟩)]
        simp

theorem countTokens_append (ts : List (List Char)) (w : List Char) :
    countTokens (ts ++ [w]) = bumpCount w (countTokens ts) := by
  unfold countTokens
  rw [List.foldl_append]
  rfl

theorem countTokens_keys_mem : ∀ ts : List (List Char), ∀ a : List Char,
    (a ∈ (countTokens ts).map Prod.fst ↔ a ∈ ts) := by
  intro ts
  induction ts using List.reverseRecOn with
  | nil => simp [countTokens]
  | append_singleton ts w ih =>
    intro a
    rw [countTokens_append, bump_keys]
    by_cases hw : w ∈ (countTokens ts).map Prod.fst
    · rw [if_pos hw]
      rw [ih a]
      constructor
      · intro h
        exact List.mem_append.mpr (Or.inl h)
      · intro h
        rcases List.mem_append.mp h with h | h
        · exact h
        · simp at h
          subst h
          exact (ih a).mp hw
    · rw [if_neg hw]
      simp [List.mem_append, ih a]

theorem countTokens_keys_nodup : ∀ ts : List (List Char),
    ((countTokens ts).map Prod.fst).Nodup := by
  intro ts
  induction ts using List.reverseRecOn with
  | nil => simp [countTokens]
  | append_singleton ts w ih =>
    rw [countTokens_append, bump_keys]
    by_cases hw : w ∈ (countTokens ts).map Prod.fst
    · rw [if_pos hw]
      exact ih
    · rw [if_neg hw]
      simp [List.nodup_append, ih, hw]

theorem pair_sublist {α : Type} : ∀ (l : List α) (p q : Nat) (hpq : p < q)
    (hq : q < l.length),
    ([l.get ⟨p, Nat.lt_trans hpq hq⟩, l.get ⟨q, hq⟩]).Sublist l := by
  intro l
  induction l with
  | nil =>
    intro p q hpq hq
    simp at hq
  | cons a t ih =>
    intro p q hpq hq
    cases q with
    | zero => omega
    | succ qq =>
      cases p with
      | zero =>
        have hmem : (a :: t).get ⟨qq + 1, hq⟩ ∈ t := by
          simp only [List.get_eq_getElem, List.getElem_cons_succ]
          exact List.getElem_mem _
        exact List.Sublist.cons₂ a (List.singleton_sublist.mpr hmem)
      | succ pp =>
        exact (ih pp qq (by omega) (by simpa using hq)).cons a

theorem sublist_pair_index {α : Type} : ∀ {l : List α} {x y : α},
    ([x, y]).Sublist l → ∃ i j, ∃ hi : i < l.length, ∃ hj : j < l.length,
      i < j ∧ l.get ⟨i, hi⟩ = x ∧ l.get ⟨j, hj⟩ = y := by
  intro l
  induction l with
  | nil =>
    intro x y h
    rw [List.sublist_nil] at h
    cases h
  | cons a t ih =>
    intro x y h
    cases h with
    | cons _ htail =>
      obtain ⟨i, j, hi, hj, hij, hx, hy⟩ := ih htail
      exact ⟨i + 1, j + 1, by simpa using hi, by simpa using hj, by omega, hx, hy⟩
    | cons₂ _ htail =>
      have hy := List.singleton_sublist.mp htail
      obtain ⟨j, hj, hyj⟩ := List.getElem_of_mem hy
      refine ⟨0, j + 1, by simp, by simpa using hj, by omega, rfl, ?_⟩
      simpa [List.get_eq_getElem] using hyj

theorem nodup_pair_order {α : Type} : ∀ {l : List α}, l.Nodup →
    ∀ {u v : α}, u ∈ l → v ∈ l → u ≠ v →
    ([u, v]).Sublist l ∨ ([v, u]).Sublist l := by
  intro l
  induction l with
  | nil =>
    intro _ u v hu
    cases hu
  | cons a t ih =>
    intro hnd u v hu hv huv
    rcases List.mem_cons.mp hu with hu1 | hu2
    · subst hu1
      have hvt : v ∈ t := by
        rcases List.mem_cons.mp hv with h | h
        · exact absurd h.symm huv
        · exact h
      left
      exact List.Sublist.cons₂ _ (List.singleton_sublist.mpr hvt)
    · rcases List.mem_cons.mp hv with hv1 | hv2
      · subst hv1
        right
        exact List.Sublist.cons₂ _ (List.singleton_sublist.mpr hu2)
      · rcases ih (List.nodup_cons.mp hnd).2 hu2 hv2 huv with h | h
        · exact Or.inl (h.cons a)
        · exact Or.inr (h.cons a)

theorem countTokens_key_order : ∀ (ts : List (List Char)) (a b : List Char),
    ([a, b]).Sublist ((countTokens ts).map Prod.fst) →
    firstIdx a ts < firstIdx b ts := by
  intro ts
  induction ts using List.reverseRecOn with
  | nil =>
    intro a b h
    rw [show (countTokens []).map Prod.fst = [] from rfl, List.sublist_nil] at h
    cases h
  | append_singleton ts w ih =>
    intro a b h
    rw [countTokens_append, bump_keys] at h
    by_cases hw : w ∈ (countTokens ts).map Prod.fst
    · rw [if_pos hw] at h
      have hab := ih a b h
      have ha : a ∈ ts := (countTokens_keys_mem ts a).mp
        (h.subset (List.mem_cons_self _ _))
      have hb : b ∈ ts := (countTokens_keys_mem ts b).mp
        (h.subset (List.mem_cons_of_mem a (List.mem_singleton.mpr rfl)))
      rw [firstIdx_append_left [w] ha, firstIdx_append_left [w] hb]
      exact hab
    · rw [if_neg hw] at h
      obtain ⟨l1, l2, heq, h1, h2⟩ := List.sublist_append_iff.mp h
      cases l2 with
      | nil =>
        rw [List.append_nil] at heq
        subst heq
        have hab := ih a b h1
        have ha : a ∈ ts := (countTokens_keys_mem ts a).mp
          (h1.subset (List.mem_cons_self _ _))
        have hb : b ∈ ts := (countTokens_keys_mem ts b).mp
          (h1.subset (List.mem_cons_of_mem a (List.mem_singleton.mpr rfl)))
        rw [firstIdx_append_left [w] ha, firstIdx_append_left [w] hb]
        exact hab
      | cons c l2t =>
        have hcw : c = w ∧ l2t = [] := by
          cases h2 with
          | cons _ h3 =>
            rw [List.sublist_nil] at h3
            cases h3
          | cons₂ _ h3 =>
            rw [List.sublist_nil] at h3
            exact ⟨rfl, h3⟩
        obtain ⟨hc, hl2t⟩ := hcw
        subst hc
        subst hl2t
        cases l1 with
        | nil => simp at heq
        | cons a1 l1t =>
          cases l1t with
          | cons a2 l1tt =>
            have hlen := congrArg List.length heq
            simp at hlen
          | nil =>
            simp only [List.cons_append, List.nil_append, List.cons.injEq] at heq
            obtain ⟨ha1, hb1⟩ := heq
            have hbc : b = c := by simpa using hb1
            subst ha1
            have ha : a ∈ ts := (countTokens_keys_mem ts a).mp
              (List.singleton_sublist.mp h1)
            have hwts : c ∉ ts := fun hmem =>
              hw ((countTokens_keys_mem ts c).mpr hmem)
            have hbts : b ∉ ts := by
              rw [hbc]
              exact hwts
            rw [firstIdx_append_left [c] ha, firstIdx_append_right [c] hbts]
            have hlt := firstIdx_lt_length ha
            omega

theorem freq_le_trans : ∀ a b c : List Char × Nat,
    decide (b.2 ≤ a.2) = true → decide (c.2 ≤ b.2) = true →
    decide (c.2 ≤ a.2) = true := by
  intro a b c h1 h2
  simp only [decide_eq_true_eq] at h1 h2 ⊢
  omega

theorem freq_le_total : ∀ a b : List Char × Nat,
    (decide (b.2 ≤ a.2) || decide (a.2 ≤ b.2)) = true := by
  intro a b
  simp only [Bool.or_eq_true, decide_eq_true_eq]
  omega

theorem mostCommon_countTokens_spec (ws : List (List Char)) (n : Nat) :
    (mostCommon n (countTokens ws)).length ≤ n
    ∧ List.Chain' (fun a b => b.2 ≤ a.2) (mostCommon n (countTokens ws))
    ∧ (∀ e ∈ mostCommon n (countTokens ws), e.1 ∈ ws)
    ∧ ∀ p q, ∀ hp : p < (mostCommon n (countTokens ws)).length,
        ∀ hq : q < (mostCommon n (countTokens ws)).length, p < q →
        ((mostCommon n (countTokens ws)).get ⟨p, hp⟩).2 =
          ((mostCommon n (countTokens ws)).get ⟨q, hq⟩).2 →
        firstIdx ((mostCommon n (countTokens ws)).get ⟨p, hp⟩).1 ws <
          firstIdx ((mostCommon n (countTokens ws)).get ⟨q, hq⟩).1 ws := by
  have hperm := List.mergeSort_perm (countTokens ws) fun a b => decide (b.2 ≤ a.2)
  have hkeysn := countTokens_keys_nodup ws
  have hwfnodup : (countTokens ws).Nodup := List.Nodup.of_map Prod.fst hkeysn
  have hsortnodup :
      ((countTokens ws).mergeSort fun a b => decide (b.2 ≤ a.2)).Nodup :=
    (hperm.nodup_iff).mpr hwfnodup
  have hsorted := List.sorted_mergeSort freq_le_trans freq_le_total (countTokens ws)
  have hsortedP : List.Pairwise (fun a b : List Char × Nat => b.2 ≤ a.2)
      ((countTokens ws).mergeSort fun a b => decide (b.2 ≤ a.2)) :=
    hsorted.imp fun h => by simpa using h
  refine ⟨?_, ?_, ?_, ?_⟩
  · unfold mostCommon
    rw [List.length_take]
    exact min_le_left _ _
  · unfold mostCommon
    exact (List.Pairwise.sublist (List.take_sublist _ _) hsortedP).chain'
  · intro e he
    unfold mostCommon at he
    have hes := (List.take_sublist _ _).mem he
    have hewf : e ∈ countTokens ws := hperm.mem_iff.mp hes
    exact (countTokens_keys_mem ws e.1).mp
      (List.mem_map.mpr ⟨e, hewf, rfl⟩)
  · intro p q hp hq hpq hcnt
    have hpl : p < ((countTokens ws).mergeSort fun a b => decide (b.2 ≤ a.2)).length := by
      have := hp
      unfold mostCommon at this
      rw [List.length_take] at this
      omega
    have hql : q < ((countTokens ws).mergeSort fun a b => decide (b.2 ≤ a.2)).length := by
      have := hq
      unfold mostCommon at this
      rw [List.length_take] at this
      omega
    have hu : (mostCommon n (countTokens ws)).get ⟨p, hp⟩ =
        ((countTokens ws).mergeSort fun a b => decide (b.2 ≤ a.2)).get ⟨p, hpl⟩ := by
      unfold mostCommon
      simp [List.get_eq_getElem, List.getElem_take]
    have hv : (mostCommon n (countTokens ws)).get ⟨q, hq⟩ =
        ((countTokens ws).mergeSort fun a b => decide (b.2 ≤ a.2)).get ⟨q, hql⟩ := by
      unfold mostCommon
      simp [List.get_eq_getElem, List.getElem_take]
    rw [hu, hv] at hcnt ⊢
    have hune : ((countTokens ws).mergeSort fun a b => decide (b.2 ≤ a.2)).get ⟨p, hpl⟩ ≠
        ((countTokens ws).mergeSort fun a b => decide (b.2 ≤ a.2)).get ⟨q, hql⟩ := by
      intro hequ
      simp only [List.get_eq_getElem] at hequ
      have := (List.Nodup.getElem_inj_iff hsortnodup).mp hequ
      omega
    have humem : ((countTokens ws).mergeSort fun a b => decide (b.2 ≤ a.2)).get ⟨p, hpl⟩ ∈
        countTokens ws := hperm.mem_iff.mp (List.get_mem _ _ _)
    have hvmem : ((countTokens ws).mergeSort fun a b => decide (b.2 ≤ a.2)).get ⟨q, hql⟩ ∈
        countTokens ws := hperm.mem_iff.mp (List.get_mem _ _ _)
    rcases nodup_pair_order hwfnodup humem hvmem hune with hord | hord
    · exact countTokens_key_order ws _ _ (hord.map Prod.fst)
    · exfalso
      have hpair : List.Pairwise
          (fun a b : List Char × Nat => decide (b.2 ≤ a.2) = true)
          [((countTokens ws).mergeSort fun a b => decide (b.2 ≤ a.2)).get ⟨q, hql⟩,
           ((countTokens ws).mergeSort fun a b => decide (b.2 ≤ a.2)).get ⟨p, hpl⟩] := by
        simp only [List.pairwise_cons, List.mem_singleton, and_true,
          decide_eq_true_eq]
        refine ⟨?_, ?_, List.Pairwise.nil⟩
        · intro e he
          subst he
          omega
        · intro e he
          exact absurd he (List.not_mem_nil e)
      have hsub2 := List.sublist_mergeSort freq_le_trans freq_le_total hpair hord
      obtain ⟨i, j, hi, hj, hij, hiv, hju⟩ := sublist_pair_index hsub2
      have hiq : i = q := by
        rw [List.get_eq_getElem, List.get_eq_getElem] at hiv
        exact (List.Nodup.getElem_inj_iff hsortnodup).mp hiv
      have hjp : j = p := by
        rw [List.get_eq_getElem, List.get_eq_getElem] at hju
        exact (List.Nodup.getElem_inj_iff hsortnodup).mp hju
      omega

/-- Claim C6: for every tokenizer, stopword set, text and top_n, the
frequency analyzer returns at most top_n entries, ordered by count
descending, and entries of equal count keep the order of their first
occurrence in the tokenization. -/
theorem get_word_frequency_spec :
    ∀ (tok : List Char → List (List Char)) (stop : List (List Char))
      (text : List Char) (top_n : Nat),
    (get_word_frequency tok stop text top_n).length ≤ top_n
    ∧ List.Chain' (fun a b => b.2 ≤ a.2) (get_word_frequency tok stop text top_n)
    ∧ ∀ p q, ∀ hp : p < (get_word_frequency tok stop text top_n).length,
        ∀ hq : q < (get_word_frequency tok stop text top_n).length, p < q →
        ((get_word_frequency tok stop text top_n).get ⟨p, hp⟩).2 =
          ((get_word_frequency tok stop text top_n).get ⟨q, hq⟩).2 →
        firstIdx ((get_word_frequency tok stop text top_n).get ⟨p, hp⟩).1
            (tok (clean_text text)) <
          firstIdx ((get_word_frequency tok stop text top_n).get ⟨q, hq⟩).1
            (tok (clean_text text)) := by
  intro tok stop text top_n
  obtain ⟨h1, h2, h3, h4⟩ :=
    mostCommon_countTokens_spec ((tok (clean_text text)).filter (freqKeep stop)) top_n
  refine ⟨h1, h2, ?_⟩
  intro p q hp hq hpq hcnt
  have hfo := h4 p q hp hq hpq hcnt
  have hxmem : ((get_word_frequency tok stop text top_n).get ⟨p, hp⟩).1 ∈
      (tok (clean_text text)).filter (freqKeep stop) :=
    h3 ((get_word_frequency tok stop text top_n).get ⟨p, hp⟩) (List.get_mem _ _ _)
  have hymem : ((get_word_frequency tok stop text top_n).get ⟨q, hq⟩).1 ∈
      (tok (clean_text text)).filter (freqKeep stop) :=
    h3 ((get_word_frequency tok stop text top_n).get ⟨q, hq⟩) (List.get_mem _ _ _)
  exact firstIdx_filter_lt (freqKeep stop) (tok (clean_text text)) _ _ hxmem hymem hfo

/- ===== Email extractor ===== -/

theorem descRange_mem : ∀ (hi lo j : Nat), (j ∈ descRange hi lo ↔ lo ≤ j ∧ j ≤ hi) := by
  intro hi
  induction hi with
  | zero =>
    intro lo j
    unfold descRange
    by_cases h : lo = 0
    · subst h
      constructor
      · intro hm
        simp at hm
        omega
      · intro hm
        have hj : j = 0 := by omega
        subst hj
        simp
    · rw [if_neg h]
      constructor
      · intro hm
        simp at hm
      · intro hm
        omega
  | succ k ih =>
    intro lo j
    unfold descRange
    by_cases h : k + 1 < lo
    · rw [if_pos h]
      constructor
      · intro hm
        simp at hm
      · intro hm
        omega
    · rw [if_neg h]
      rw [List.mem_cons, ih lo j]
      omega

theorem take_all_of_le_takeWhile {p : Char → Bool} : ∀ {l : List Char} {j : Nat},
    j ≤ (l.takeWhile p).length → (l.take j).all p = true := by
  intro l
  induction l with
  | nil =>
    intro j h
    simp at h
    subst h
    simp
  | cons x t ih =>
    intro j h
    by_cases hp : p x = true
    · rw [List.takeWhile_cons_of_pos hp] at h
      cases j with
      | zero => simp
      | succ jj =>
        rw [List.take_succ_cons, List.all_cons]
        simp only [List.length_cons] at h
        rw [hp, ih (by omega)]
        rfl
    · rw [List.takeWhile_cons_of_neg hp] at h
      simp at h
      subst h
      simp

theorem le_takeWhile_of_take_all {p : Char → Bool} : ∀ {l : List Char} {j : Nat},
    (l.take j).all p = true → j ≤ l.length → j ≤ (l.takeWhile p).length := by
  intro l
  induction l with
  | nil =>
    intro j _ h2
    simpa using h2
  | cons x t ih =>
    intro j hall hlen
    cases j with
    | zero => omega
    | succ jj =>
      rw [List.take_succ_cons, List.all_cons, Bool.and_eq_true] at hall
      rw [List.takeWhile_cons_of_pos hall.1]
      simp only [List.length_cons] at hlen ⊢
      have := ih hall.2 (by omega)
      omega

theorem firstSomeUpTo_none_all {α : Type} {f : Nat → Option α} : ∀ {n : Nat},
    firstSomeUpTo f n = none → ∀ i, i < n → f i = none := by
  intro n
  induction n with
  | zero =>
    intro _ i hi
    omega
  | succ k ih =>
    intro h i hi
    unfold firstSomeUpTo at h
    cases hk : firstSomeUpTo f k with
    | some r =>
      rw [hk] at h
      cases h
    | none =>
      rw [hk] at h
      by_cases hik : i < k
      · exact ih hk i hik
      · have : i = k := by omega
        subst this
        exact h

theorem firstSomeUpTo_some_first {α : Type} {f : Nat → Option α} : ∀ {n : Nat}
    {r : α}, firstSomeUpTo f n = some r →
    ∃ i, i < n ∧ f i = some r ∧ ∀ j, j < i → f j = none := by
  intro n
  induction n with
  | zero =>
    intro r h
    cases h
  | succ k ih =>
    intro r h
    unfold firstSomeUpTo at h
    cases hk : firstSomeUpTo f k with
    | some r2 =>
      rw [hk] at h
      cases h
      obtain ⟨i, hik, hfi, hprev⟩ := ih hk
      exact ⟨i, by omega, hfi, hprev⟩
    | none =>
      rw [hk] at h
      exact ⟨k, by omega, h, fun j hj => firstSomeUpTo_none_all hk j hj⟩

theorem emailShapeAt_iff (tldc : Char → Bool) (bounded : Bool) (s : List Char)
    (i : Nat) (m : List Char) :
    emailShapeAt tldc bounded s i m = true ↔
      ∃ a b c : Nat, 1 ≤ a ∧ 1 ≤ b ∧ 2 ≤ c ∧
        i + (a + 1 + b + 1 + c) ≤ s.length ∧
        m = sliceAt s i (a + 1 + b + 1 + c) ∧
        (sliceAt s i a).all isLocalChar = true ∧
        s[i + a]? = some '@' ∧
        (sliceAt s (i + a + 1) b).all isDomainChar = true ∧
        s[i + a + 1 + b]? = some '.' ∧
        (sliceAt s (i + a + 1 + b + 1) c).all tldc = true ∧
        (bounded = true →
          (boundary s i = true ∧ boundary s (i + (a + 1 + b + 1 + c)) = true)) := by
  unfold emailShapeAt
  simp only [List.any_eq_true, List.mem_range, Bool.and_eq_true, decide_eq_true_eq]
  constructor
  · rintro ⟨a, ha, b, hb, c, hc, h1, h2, h3, h4, h5, h6, h7, h8, h9, h10, h11⟩
    refine ⟨a, b, c, h1, h2, h3, h4, h5, h6, h7, h8, h9, h10, ?_⟩
    intro hbd
    rw [hbd] at h11
    simpa using h11
  · rintro ⟨a, b, c, h1, h2, h3, h4, h5, h6, h7, h8, h9, h10, h11⟩
    refine ⟨a, by omega, b, by omega, c, by omega,
      h1, h2, h3, h4, h5, h6, h7, h8, h9, h10, ?_⟩
    cases bounded with
    | false => simp
    | true =>
      obtain ⟨hb1, hb2⟩ := h11 rfl
      simp [hb1, hb2]

theorem findSome_mem {α β : Type} {f : α → Option β} {l : List α} {r : β}
    (h : l.findSome? f = some r) : ∃ x ∈ l, f x = some r := by
  obtain ⟨l1, x, l2, hsplit, hx, hprev⟩ := List.findSome?_eq_some_iff.mp h
  exact ⟨x, by
    rw [hsplit]
    exact List.mem_append.mpr (Or.inr (List.mem_cons_self _ _)), hx⟩

theorem matchEmailAt_sound {s : List Char} {i : Nat} {m : List Char}
    (h : matchEmailAt s i = some m) :
    emailShapeAt isTldChar true s i m = true := by
  unfold matchEmailAt at h
  by_cases hb : boundary s i = true
  case neg =>
    rw [if_neg hb] at h
    cases h
  rw [if_pos hb] at h
  obtain ⟨a, hamem, ha⟩ := findSome_mem h
  by_cases hat : s[i + a]? = some '@'
  case neg =>
    rw [if_neg hat] at ha
    cases ha
  rw [if_pos hat] at ha
  obtain ⟨b, hbmem, hbv⟩ := findSome_mem ha
  by_cases hdot : s[i + a + 1 + b]? = some '.'
  case neg =>
    rw [if_neg hdot] at hbv
    cases hbv
  rw [if_pos hdot] at hbv
  obtain ⟨c, hcmem, hcv⟩ := findSome_mem hbv
  by_cases hb2 : boundary s (i + (a + 1 + b + 1 + c)) = true
  case neg =>
    rw [if_neg hb2] at hcv
    cases hcv
  rw [if_pos hb2] at hcv
  have hm : m = sliceAt s i (a + 1 + b + 1 + c) := by
    injection hcv with h2
    exact h2.symm
  rw [descRange_mem] at hamem hbmem hcmem
  rw [emailShapeAt_iff]
  refine ⟨a, b, c, hamem.1, hbmem.1, hcmem.1, ?_, hm,
    take_all_of_le_takeWhile hamem.2, hat,
    take_all_of_le_takeWhile hbmem.2, hdot,
    take_all_of_le_takeWhile hcmem.2, fun _ => ⟨hb, hb2⟩⟩
  have h3 := hcmem.2
  have hK3 : ((s.drop (i + a + 1 + b + 1)).takeWhile isTldChar).length ≤
      (s.drop (i + a + 1 + b + 1)).length := (List.takeWhile_sublist _).length_le
  rw [List.length_drop] at hK3
  have h2c := hcmem.1
  omega

theorem matchEmailAt_none_complete {s : List Char} {i : Nat}
    (h : matchEmailAt s i = none) :
    ∀ m, emailShapeAt isTldChar true s i m = false := by
  intro m
  cases hx : emailShapeAt isTldChar true s i m with
  | false => rfl
  | true =>
    exfalso
    obtain ⟨a, b, c, h1, h2, h3, hlen, hm, hloc, hat, hdom, hdot, htld, hbnd⟩ :=
      (emailShapeAt_iff _ _ _ _ _).mp hx
    obtain ⟨hbd1, hbd2⟩ := hbnd rfl
    unfold matchEmailAt at h
    rw [if_pos hbd1] at h
    rw [List.findSome?_eq_none_iff] at h
    have hamem : a ∈ descRange ((s.drop i).takeWhile isLocalChar).length 1 := by
      rw [descRange_mem]
      refine ⟨h1, le_takeWhile_of_take_all hloc ?_⟩
      rw [List.length_drop]
      omega
    have ha := h a hamem
    rw [if_pos hat] at ha
    rw [List.findSome?_eq_none_iff] at ha
    have hbmem : b ∈ descRange
        ((s.drop (i + a + 1)).takeWhile isDomainChar).length 1 := by
      rw [descRange_mem]
      refine ⟨h2, le_takeWhile_of_take_all hdom ?_⟩
      rw [List.length_drop]
      omega
    have hbv := ha b hbmem
    rw [if_pos hdot] at hbv
    rw [List.findSome?_eq_none_iff] at hbv
    have hcmem : c ∈ descRange
        ((s.drop (i + a + 1 + b + 1)).takeWhile isTldChar).length 2 := by
      rw [descRange_mem]
      refine ⟨h3, le_takeWhile_of_take_all htld ?_⟩
      rw [List.length_drop]
      omega
    have hcv := hbv c hcmem
    rw [if_pos hbd2] at hcv
    cases hcv

/-- Claim C2 (amended): extract_email returns a substring matching the
word-boundary-bracketed pattern (tld class letters-or-bar) at the leftmost
position where any such match exists, and the sentinel when none exists -
in particular on any text with no at sign; on the example text it returns
"a.b@example.com". -/
theorem extract_email_spec :
    (∀ s : List Char,
      (extract_email s = notFound ∧ ∀ i m, emailShapeAt isTldChar true s i m = false)
      ∨ (∃ i, emailShapeAt isTldChar true s i (extract_email s) = true
          ∧ ∀ j m, j < i → emailShapeAt isTldChar true s j m = false))
    ∧ (∀ s : List Char, '@' ∉ s → extract_email s = notFound)
    ∧ extract_email "contact me at a.b@example.com or c@d.org".data
        = "a.b@example.com".data := by
  have hmain : ∀ s : List Char,
      (extract_email s = notFound ∧ ∀ i m, emailShapeAt isTldChar true s i m = false)
      ∨ (∃ i, emailShapeAt isTldChar true s i (extract_email s) = true
          ∧ ∀ j m, j < i → emailShapeAt isTldChar true s j m = false) := by
    intro s
    cases hf : firstSomeUpTo (matchEmailAt s) (s.length + 1) with
    | none =>
      left
      constructor
      · unfold extract_email
        rw [hf]
      · intro i m
        by_cases hi : i < s.length + 1
        · exact matchEmailAt_none_complete (firstSomeUpTo_none_all hf i hi) m
        · cases hx : emailShapeAt isTldChar true s i m with
          | false => rfl
          | true =>
            exfalso
            obtain ⟨a, b, c, h1, h2, h3, hlen, hrest⟩ :=
              (emailShapeAt_iff _ _ _ _ _).mp hx
            omega
    | some m =>
      right
      have hee : extract_email s = m := by
        unfold extract_email
        rw [hf]
      obtain ⟨i, hin, hfi, hprev⟩ := firstSomeUpTo_some_first hf
      rw [hee]
      exact ⟨i, matchEmailAt_sound hfi,
        fun j m2 hj => matchEmailAt_none_complete (hprev j hj) m2⟩
  refine ⟨hmain, ?_, by decide⟩
  intro s hat
  rcases hmain s with ⟨h1, _⟩ | ⟨i, hsh, _⟩
  · exact h1
  · exfalso
    obtain ⟨a, b, c, _, _, _, _, _, _, hat2, _⟩ :=
      (emailShapeAt_iff _ _ _ _ _).mp hsh
    obtain ⟨hlt, heq⟩ := List.getElem?_eq_some_iff.mp hat2
    exact hat (by rw [← heq]; exact List.getElem_mem hlt)

/-- Claim C2 counterexample: on "-x@y.ab|cd" the extractor returns
"x@y.ab|cd", which is not a letters-only-tld match of the claim's
unbracketed description at any position of the input (it contains a bar),
although such a match, "-x@y.ab", does exist at position 0. -/
theorem extract_email_counterexample :
    extract_email "-x@y.ab|cd".data = "x@y.ab|cd".data
    ∧ emailShapeSomewhere isTldLetter false "-x@y.ab|cd".data
        (extract_email "-x@y.ab|cd".data) = false
    ∧ emailShapeAt isTldLetter false "-x@y.ab|cd".data 0 "-x@y.ab".data = true := by
  refine ⟨by decide, by decide, by decide⟩
